import Mathlib

/-!
Verification of the chess-opponent logic of `src/components/ChessGame.tsx`.

The component drives an external rules engine (chess.js).  Following the
repository's design document, the rules engine is an external collaborator:
we embed it as an abstract structure `Engine` whose operations are exactly
those the component calls (`moves()`, `move(...)`, `board()`, `isGameOver()`,
`turn`, `fen()`, plus the standard starting state `new Chess()`).  All logic
that lives in the component itself — the evaluator, the move selector, the
drop handler, the hint and reset handlers, the computer-move step — is
translated definition by definition from the source.

`Math.random()` is modelled as an explicit stream `rand : Nat -> Rat` of
samples, each in `[0, 1)` where that matters; JavaScript numbers are
modelled as rationals.  JavaScript `-Infinity` (the initial `bestValue` in
`findBestMove`) is modelled as the bottom element of `WithBot Rat`.
-/

namespace ChessGame

/-- A SAN move string, as produced by `game.moves()` (chess.js). -/
abbrev Move := String

/-- Piece kinds as chess.js reports them in `board()` entries
(`p`, `n`, `b`, `r`, `q`, `k`). -/
inductive PieceType where
  | p | n | b | r | q | k
deriving DecidableEq, Repr

/-- One entry of `game.board()`: a piece with a color.
`color = true` models `'w'`, `color = false` models `'b'`. -/
structure Piece where
  color : Bool
  ptype : PieceType
deriving DecidableEq, Repr

/-- The 8x8 array returned by `game.board()`: rows of optional pieces
(`null` for an empty square). -/
abbrev Board := List (List (Option Piece))

/-- The `pieceValues` table of `evaluatePosition` (lines 78-85):
p=1, n=3, b=3, r=5, q=9, k=0. -/
def pieceValues : PieceType → ℤ
  | .p => 1
  | .n => 3
  | .b => 3
  | .r => 5
  | .q => 9
  | .k => 0

/-- The inner loop body of `evaluatePosition` (lines 89-94): an occupied
square adds `pieceValues[piece.type] * (piece.color === 'w' ? 1 : -1)`
to the accumulator, an empty square adds nothing. -/
def cellStep (value : ℤ) (piece : Option Piece) : ℤ :=
  match piece with
  | some pc => value + pieceValues pc.ptype * (if pc.color then 1 else -1)
  | none => value

/-- The outer loop body of `evaluatePosition` (line 88): fold the cell step
over one row of the board. -/
def rowStep (value : ℤ) (row : List (Option Piece)) : ℤ :=
  row.foldl cellStep value

/-- `evaluatePosition` (lines 77-98) restricted to the board it reads:
fold the row step over all rows, starting from 0. -/
def evalBoard (b : Board) : ℤ :=
  b.foldl rowStep 0

/-- The signed material value of one piece, as the specification describes
the sum: fixed value, `+` for White, `-` for Black. -/
def signedValue (pc : Piece) : ℤ :=
  pieceValues pc.ptype * (if pc.color then 1 else -1)

/-- Outcome of a call to chess.js `game.move(...)`: a new position on a
legal move, `null` on a rejected move, or a thrown exception (chess.js v1
throws on malformed or illegal input; the component catches it). -/
inductive MoveResult (σ : Type) where
  | legal (s : σ)
  | illegal
  | err
deriving DecidableEq, Repr

/-- The rules-engine collaborator (chess.js), with exactly the operations
the component uses.  `σ` is the engine's opaque position state.
`applyMove` models `new Chess(game.fen())` followed by `gameCopy.move(m)`
for a SAN string `m` taken from `moves()` (which always succeeds);
`tryMove` models the object-form `move({from, to, promotion: 'q'})` used by
`onDrop`, which can reject or throw.  `turn = true` models White to move. -/
structure Engine (σ : Type) where
  start : σ
  turn : σ → Bool
  moves : σ → List Move
  applyMove : σ → Move → σ
  tryMove : σ → String → String → MoveResult σ
  board : σ → Board
  isGameOver : σ → Bool
  fen : σ → String

/-- `evaluatePosition(game)` (lines 77-98): material count of `game.board()`. -/
def evaluatePosition {σ : Type} (E : Engine σ) (s : σ) : ℤ :=
  evalBoard (E.board s)

/-- The noise coefficient of `findBestMove` (line 67):
`depth === 2 ? 2 : 0.5`. -/
def mag (depth : ℕ) : ℚ :=
  if depth = 2 then 2 else 1/2

/-- The `moves.forEach` loop of `findBestMove` (lines 64-72), carried out
over the remaining move list.  The accumulator is the pair
`(bestMove, bestValue)`; `i` indexes the `Math.random()` sample consumed in
this iteration.  Each iteration scores its move as
`evaluatePosition(gameCopy) + Math.random() * c` for the scratch copy after
the move and replaces the running best exactly when the comparison
`value > bestValue` holds. -/
def findLoop (eval : Move → ℚ) (rand : ℕ → ℚ) (c : ℚ) :
    List Move → ℕ → Option Move × WithBot ℚ → Option Move × WithBot ℚ
  | [], _, best => best
  | m :: rest, i, best =>
    let value : ℚ := eval m + rand i * c
    findLoop eval rand c rest (i + 1)
      (if best.2 < (value : WithBot ℚ) then (some m, (value : WithBot ℚ)) else best)

/-- `findBestMove(game, depth)` (lines 59-75).  `bestMove` starts as
`moves[0]` (JavaScript `undefined`, i.e. `none`, on an empty list) and
`bestValue` starts as `-Infinity` (`⊥`). -/
def findBestMove {σ : Type} (E : Engine σ) (s : σ) (depth : ℕ) (rand : ℕ → ℚ) :
    Option Move :=
  let moves := E.moves s
  (findLoop (fun m => ((evaluatePosition E (E.applyMove s m) : ℤ) : ℚ)) rand (mag depth)
    moves 0 (moves.head?, ⊥)).1

/-- The three strength settings (line 6). -/
inductive Difficulty where
  | easy | amateur | pro
deriving DecidableEq, Repr

/-- The `switch (difficulty)` block of `makeComputerMove` (lines 18-32),
the spec's `selectMove(position, difficulty)`:
`easy` picks `possibleMoves[Math.floor(Math.random() * possibleMoves.length)]`
(an out-of-range index would read `undefined`, i.e. `none`);
`amateur` is `findBestMove(game, 2)` and `pro` is `findBestMove(game, 4)`. -/
def selectMove {σ : Type} (E : Engine σ) (s : σ) (d : Difficulty) (rand : ℕ → ℚ) :
    Option Move :=
  match d with
  | .easy => (E.moves s).get? (Int.toNat ⌊rand 0 * ((E.moves s).length : ℚ)⌋)
  | .amateur => findBestMove E s 2 rand
  | .pro => findBestMove E s 4 rand

/-- The guard of `makeComputerMove` (line 16):
`game.isGameOver() || possibleMoves.length === 0`. -/
def terminalPos {σ : Type} (E : Engine σ) (s : σ) : Bool :=
  E.isGameOver s || (E.moves s).length == 0

/-- `makeComputerMove` (lines 14-37) acting on the position it owns: return
early (position unchanged) when the guard fires, otherwise commit the
selected move on a copy (`new Chess(game.fen()); gameCopy.move(move)`).
The `none` branch models the path where no move was selected: there
`gameCopy.move(undefined)` throws before `setGame`, so the owned position
is also left unchanged; the guard makes this branch unreachable. -/
def makeComputerMove {σ : Type} (E : Engine σ) (s : σ) (d : Difficulty)
    (rand : ℕ → ℚ) : σ :=
  if terminalPos E s then s
  else
    match selectMove E s d rand with
    | some m => E.applyMove s m
    | none => s

/-- The design document's controller phases: waiting for the player,
an opponent step scheduled (the pending `setTimeout(makeComputerMove, 300)`),
or a terminal position reached. -/
inductive Phase where
  | awaiting | pendingComputer | terminal
deriving DecidableEq, Repr

/-- The component's state (lines 9-12) plus the spec-level phase: the owned
position `game`, the `difficulty` setting, the hint display pair
(`showHint`, `hintMove`; the empty string is `none`). -/
structure GState (σ : Type) where
  game : σ
  difficulty : Difficulty
  showHint : Bool
  hintMove : Option Move
  phase : Phase
deriving DecidableEq

/-- `onDrop(sourceSquare, targetSquare)` (lines 39-57): try the move with
promotion `'q'` on a copy.  A `null` result returns `false`; a thrown
exception is caught and returns `false`; in both cases the state is left
untouched.  On success the new position is committed and the opponent step
is scheduled (`setTimeout(makeComputerMove, 300)`), and `true` is returned. -/
def onDrop {σ : Type} (E : Engine σ) (st : GState σ) (src tgt : String) :
    Bool × GState σ :=
  match E.tryMove st.game src tgt with
  | .legal g => (true, { st with game := g, phase := Phase.pendingComputer })
  | .illegal => (false, st)
  | .err => (false, st)

/-- The state part of `onDrop`. -/
def dropStep {σ : Type} (E : Engine σ) (st : GState σ) (src tgt : String) :
    GState σ :=
  (onDrop E st src tgt).2

/-- The scheduled opponent step as the source actually runs it.
`makeComputerMove` is a `useCallback` closure over the render-time `game`
(line 14, deps `[game, difficulty]`), and `onDrop` schedules the current
render's closure (line 52), whose captured `game` is still the position
from before the player's move.  So when the timer fires, the guard, the
selection and the committed copy (lines 15-16, 34-36) are all computed
from that captured position `g0`, not from the currently committed one.
When the guard fires on `g0` the callback returns before `setGame`,
leaving the committed position untouched; otherwise `setGame(gameCopy)`
overwrites the committed position with one computed entirely from `g0`. -/
def staleComputerStep {σ : Type} (E : Engine σ) (st : GState σ) (g0 : σ)
    (rand : ℕ → ℚ) : GState σ :=
  if terminalPos E g0 then st
  else { st with game := makeComputerMove E g0 st.difficulty rand }

/-- A player drop followed by the firing of the timer it scheduled
(lines 49-52): `setGame(gameCopy)` commits the player's move, then
`setTimeout(makeComputerMove, 300)` schedules this render's callback,
whose captured position is the pre-drop `st.game`.  A rejected drop
schedules nothing. -/
def dropThenTimer {σ : Type} (E : Engine σ) (st : GState σ)
    (src tgt : String) (rand : ℕ → ℚ) : GState σ :=
  if (onDrop E st src tgt).1
  then staleComputerStep E (dropStep E st src tgt) st.game rand
  else dropStep E st src tgt

/-- `getHint` (lines 100-105): select `findBestMove(game, 3)` — the depth
argument is the literal 3 — store it as the hint and show it.  The owned
position is not touched; the 2-second display timer is a UI concern. -/
def getHint {σ : Type} (E : Engine σ) (st : GState σ) (rand : ℕ → ℚ) :
    GState σ :=
  { st with hintMove := findBestMove E st.game 3 rand, showHint := true }

/-- `resetGame` (lines 107-111): a fresh starting position (`new Chess()`),
hint hidden and cleared.  The difficulty is not touched here. -/
def resetGame {σ : Type} (E : Engine σ) (st : GState σ) : GState σ :=
  { st with game := E.start, showHint := false, hintMove := none,
            phase := Phase.awaiting }

/-- A difficulty button (lines 124-127): `setDifficulty(d)` then
`resetGame()` — the spec's `reset(difficulty)`. -/
def difficultyButton {σ : Type} (E : Engine σ) (d : Difficulty) (st : GState σ) :
    GState σ :=
  resetGame E { st with difficulty := d }

/-- The component's mount state (lines 9-12): fresh game, hint off,
awaiting the player's move, with a caller-chosen difficulty. -/
def startState {σ : Type} (E : Engine σ) (d : Difficulty) : GState σ :=
  { game := E.start, difficulty := d, showHint := false, hintMove := none,
    phase := Phase.awaiting }

/-- The facts the component relies on about the rules engine (spec 6):
White moves first from the starting position, and applying a legal move
gives the move to the other side. -/
structure EngineOk {σ : Type} (E : Engine σ) : Prop where
  turn_start : E.turn E.start = true
  turn_tryMove : ∀ s f t s2, E.tryMove s f t = MoveResult.legal s2 →
    E.turn s2 = !E.turn s
  turn_applyMove : ∀ s m, m ∈ E.moves s →
    E.turn (E.applyMove s m) = !E.turn s

/-!  Analysis layer.  `findLoop` interleaves score computation with the
running-best update; for reasoning we split it into the score list
(`noisyScores`) and the pure selection fold (`bestLoop`) and prove the two
presentations equal. -/

/-- The selection fold of `findBestMove` over precomputed
(move, noisy score) pairs: replace the running best exactly on a strictly
greater score. -/
def bestLoop : List (Move × ℚ) → Option Move × WithBot ℚ → Option Move × WithBot ℚ
  | [], best => best
  | p :: rest, best =>
    bestLoop rest
      (if best.2 < (p.2 : WithBot ℚ) then (some p.1, (p.2 : WithBot ℚ)) else best)

/-- Each move paired with its noisy score
`eval(move) + rand(index) * c`, indices starting at `i`. -/
def noisyScores (eval : Move → ℚ) (rand : ℕ → ℚ) (c : ℚ) :
    List Move → ℕ → List (Move × ℚ)
  | [], _ => []
  | m :: rest, i => (m, eval m + rand i * c) :: noisyScores eval rand c rest (i + 1)

/-- The noisy score `findBestMove` assigns to the `k`-th legal move:
the material evaluation of the scratch position after that one move, plus
the `k`-th noise sample scaled by the depth coefficient. -/
def fscore {σ : Type} (E : Engine σ) (s : σ) (d : ℕ) (rand : ℕ → ℚ)
    (k : Fin (E.moves s).length) : ℚ :=
  ((evaluatePosition E (E.applyMove s ((E.moves s).get k)) : ℤ) : ℚ) +
    rand (k : ℕ) * mag d

/-- The back rank of one side in the standard starting position. -/
def backRank (c : Bool) : List (Option Piece) :=
  [some ⟨c, .r⟩, some ⟨c, .n⟩, some ⟨c, .b⟩, some ⟨c, .q⟩,
   some ⟨c, .k⟩, some ⟨c, .b⟩, some ⟨c, .n⟩, some ⟨c, .r⟩]

/-- A rank of eight pawns of one side. -/
def pawnRank (c : Bool) : List (Option Piece) :=
  List.replicate 8 (some ⟨c, .p⟩)

/-- An empty rank. -/
def emptyRank : List (Option Piece) :=
  List.replicate 8 (none : Option Piece)

/-- `(new Chess()).board()`: the standard starting position as chess.js
reports it, rank 8 (Black's back rank) first. -/
def standardStartingBoard : Board :=
  [backRank false, pawnRank false, emptyRank, emptyRank,
   emptyRank, emptyRank, pawnRank true, backRank true]

/-!  A small concrete rules engine used to instantiate the theorems at
concrete inputs.  Positions are numbers; the tables satisfy the oracle
contract `EngineOk`.  Position 0 is the start (White); the drop `e2 -> e4`
from 0 leads to position 1 (Black); positions 1 and 2 are Black to move
with two replies each; position 4 has no legal moves; position 6 offers
two moves whose resulting positions evaluate equally; the drop `d2 -> d4`
from 0 leads to position 9, where the side to move has no reply — a
player move that ends the game. -/

/-- Toy side to move: White exactly at positions 0, 3, 4 and 6. -/
def toyTurn (n : ℕ) : Bool :=
  n == 0 || n == 3 || n == 4 || n == 6

/-- Toy legal-move table. -/
def toyMoves (n : ℕ) : List Move :=
  if n = 0 then ["a", "b"]
  else if n = 1 ∨ n = 2 then ["c", "d"]
  else if n = 3 then ["e"]
  else if n = 6 then ["p", "q"]
  else []

/-- Toy move application. -/
def toyApply (n : ℕ) (m : Move) : ℕ :=
  if n = 0 then (if m = "a" then 1 else 2)
  else if n = 1 ∨ n = 2 then (if m = "c" then 3 else 4)
  else if n = 3 then 1
  else if n = 6 then (if m = "p" then 7 else 8)
  else 1

/-- Toy drop-move oracle: from the start, `e2 -> e4` (to position 1) and
`d2 -> d4` (to the terminal position 9) are the legal drops; everything
else is rejected. -/
def toyTry (n : ℕ) (f t : String) : MoveResult ℕ :=
  if n = 0 ∧ f = "e2" ∧ t = "e4" then MoveResult.legal 1
  else if n = 0 ∧ f = "d2" ∧ t = "d4" then MoveResult.legal 9
  else MoveResult.illegal

/-- Toy boards: position 2 holds one White pawn (material 1), position 4
one White queen (material 9), all other positions are empty boards. -/
def toyBoard (n : ℕ) : Board :=
  if n = 2 then [[some ⟨true, PieceType.p⟩]]
  else if n = 4 then [[some ⟨true, PieceType.q⟩]]
  else []

/-- The toy rules engine. -/
def toyE : Engine ℕ where
  start := 0
  turn := toyTurn
  moves := toyMoves
  applyMove := toyApply
  tryMove := toyTry
  board := toyBoard
  isGameOver := fun _ => false
  fen := fun n => toString n

/-- The all-zeroes random stream (noise forced to zero). -/
def zeroRand : ℕ → ℚ := fun _ => 0

/-- The constant one-half random stream. -/
def halfRand : ℕ → ℚ := fun _ => 1/2

lemma findLoop_eq_bestLoop (eval : Move → ℚ) (rand : ℕ → ℚ) (c : ℚ) :
    ∀ (l : List Move) (i : ℕ) (b : Option Move × WithBot ℚ),
      findLoop eval rand c l i b = bestLoop (noisyScores eval rand c l i) b := by
  intro l
  induction l with
  | nil => intro i b; rfl
  | cons m rest ih => intro i b; simp only [findLoop, noisyScores, bestLoop, ih]

lemma noisyScores_length (eval : Move → ℚ) (rand : ℕ → ℚ) (c : ℚ) :
    ∀ (l : List Move) (i : ℕ), (noisyScores eval rand c l i).length = l.length := by
  intro l
  induction l with
  | nil => intro i; rfl
  | cons m rest ih => intro i; simp [noisyScores, ih]

lemma noisyScores_get? (eval : Move → ℚ) (rand : ℕ → ℚ) (c : ℚ) :
    ∀ (l : List Move) (i k : ℕ),
      (noisyScores eval rand c l i).get? k =
        (l.get? k).map (fun m => (m, eval m + rand (i + k) * c)) := by
  intro l
  induction l with
  | nil => intro i k; rfl
  | cons m rest ih =>
    intro i k
    cases k with
    | zero => simp [noisyScores]
    | succ k0 =>
      simp only [noisyScores, List.get?_cons_succ, ih]
      have : i + 1 + k0 = i + (k0 + 1) := by omega
      rw [this]

lemma bestLoop_const : ∀ (l : List (Move × ℚ)) (o : Option Move) (v : ℚ),
    (∀ p ∈ l, p.2 ≤ v) → bestLoop l (o, (v : WithBot ℚ)) = (o, (v : WithBot ℚ)) := by
  intro l
  induction l with
  | nil => intro o v _; rfl
  | cons p rest ih =>
    intro o v h
    have hp : p.2 ≤ v := h p (List.mem_cons_self p rest)
    have hc : ¬ ((v : WithBot ℚ) < (p.2 : WithBot ℚ)) := by
      rw [WithBot.coe_lt_coe]; exact not_lt.mpr hp
    simp only [bestLoop, if_neg hc]
    exact ih o v (fun q hq => h q (List.mem_cons_of_mem p hq))

lemma bestLoop_improve :
    ∀ (l : List (Move × ℚ)) (j : ℕ) (hj : j < l.length) (b : Option Move) (v : ℚ),
      v < (l.get ⟨j, hj⟩).2 →
      (∀ p ∈ l, p.2 ≤ (l.get ⟨j, hj⟩).2) →
      (∀ k (hk : k < l.length), k < j → (l.get ⟨k, hk⟩).2 < (l.get ⟨j, hj⟩).2) →
      bestLoop l (b, (v : WithBot ℚ)) =
        (some (l.get ⟨j, hj⟩).1, ((l.get ⟨j, hj⟩).2 : WithBot ℚ)) := by
  intro l
  induction l with
  | nil => intro j hj; simp at hj
  | cons p rest ih =>
    intro j hj b v hv hmax hfirst
    cases j with
    | zero =>
      have hc : (v : WithBot ℚ) < (p.2 : WithBot ℚ) := WithBot.coe_lt_coe.mpr hv
      simp only [List.get] at hv hmax hfirst ⊢
      simp only [bestLoop, if_pos hc]
      exact bestLoop_const rest (some p.1) p.2
        (fun q hq => hmax q (List.mem_cons_of_mem p hq))
    | succ j0 =>
      have hj0 : j0 < rest.length := by simpa using hj
      have hget : (p :: rest).get ⟨j0 + 1, hj⟩ = rest.get ⟨j0, hj0⟩ :=
        List.get_cons_succ
      rw [hget] at hv hmax hfirst ⊢
      have hp : p.2 < (rest.get ⟨j0, hj0⟩).2 := by
        have := hfirst 0 (by simp) (Nat.succ_pos j0)
        simpa using this
      have hmax' : ∀ q ∈ rest, q.2 ≤ (rest.get ⟨j0, hj0⟩).2 :=
        fun q hq => hmax q (List.mem_cons_of_mem p hq)
      have hfirst' : ∀ k (hk : k < rest.length), k < j0 →
          (rest.get ⟨k, hk⟩).2 < (rest.get ⟨j0, hj0⟩).2 := by
        intro k hk hkj
        have hk1 : k + 1 < (p :: rest).length := by simpa using Nat.succ_lt_succ hk
        have := hfirst (k + 1) hk1 (Nat.succ_lt_succ hkj)
        rwa [List.get_cons_succ] at this
      by_cases hvp : v < p.2
      · simp only [bestLoop, if_pos (WithBot.coe_lt_coe.mpr hvp)]
        exact ih j0 hj0 (some p.1) p.2 hp hmax' hfirst'
      · have hc : ¬ ((v : WithBot ℚ) < (p.2 : WithBot ℚ)) := by
          rw [WithBot.coe_lt_coe]; exact hvp
        simp only [bestLoop, if_neg hc]
        exact ih j0 hj0 b v hv hmax' hfirst'

lemma exists_firstArgmax :
    ∀ (l : List (Move × ℚ)), l ≠ [] →
      ∃ j : Fin l.length,
        (∀ p ∈ l, p.2 ≤ (l.get j).2) ∧
        (∀ k : Fin l.length, (k : ℕ) < (j : ℕ) → (l.get k).2 < (l.get j).2) := by
  intro l
  induction l with
  | nil => intro h; exact absurd rfl h
  | cons p rest ih =>
    intro _
    by_cases hr : rest = []
    · subst hr
      refine ⟨⟨0, by simp⟩, ?_, ?_⟩
      · intro q hq
        have : q = p := by simpa using hq
        simp [this]
      · intro k hk
        exact absurd hk (by simp)
    · obtain ⟨j, hmax, hfirst⟩ := ih hr
      by_cases hc : (rest.get j).2 ≤ p.2
      · refine ⟨⟨0, by simp⟩, ?_, ?_⟩
        · intro q hq
          rcases List.mem_cons.mp hq with h1 | h1
          · simp [h1]
          · exact le_trans (hmax q h1) hc
        · intro k hk
          exact absurd hk (by simp)
      · push_neg at hc
        have hjlen : (j : ℕ) + 1 < (p :: rest).length := by
          simp only [List.length_cons]
          exact Nat.succ_lt_succ j.2
        have hget : (p :: rest).get ⟨(j : ℕ) + 1, hjlen⟩ = rest.get j := by
          rw [List.get_cons_succ]
        refine ⟨⟨(j : ℕ) + 1, hjlen⟩, ?_, ?_⟩
        · intro q hq
          rw [hget]
          rcases List.mem_cons.mp hq with h1 | h1
          · exact h1 ▸ le_of_lt hc
          · exact hmax q h1
        · intro k hk
          rw [hget]
          rcases k with ⟨kv, hkv⟩
          cases kv with
          | zero => simpa using hc
          | succ k0 =>
            have hk0 : k0 < rest.length := by simpa using hkv
            have hgk : (p :: rest).get ⟨k0 + 1, hkv⟩ = rest.get ⟨k0, hk0⟩ :=
              List.get_cons_succ
            rw [hgk]
            exact hfirst ⟨k0, hk0⟩ (by simpa using hk)

lemma bestLoop_argmax (l : List (Move × ℚ)) (o : Option Move) (h : l ≠ []) :
    ∃ j : Fin l.length,
      (bestLoop l (o, ⊥)).1 = some (l.get j).1 ∧
      (∀ p ∈ l, p.2 ≤ (l.get j).2) ∧
      (∀ k : Fin l.length, (k : ℕ) < (j : ℕ) → (l.get k).2 < (l.get j).2) := by
  obtain ⟨j, hmax, hfirst⟩ := exists_firstArgmax l h
  refine ⟨j, ?_, hmax, hfirst⟩
  match l, j, hmax, hfirst with
  | p :: rest, j, hmax, hfirst =>
    have hstep : bestLoop (p :: rest) (o, ⊥) = bestLoop rest (some p.1, (p.2 : WithBot ℚ)) := by
      simp only [bestLoop, if_pos (WithBot.bot_lt_coe p.2)]
    rw [hstep]
    rcases j with ⟨jv, hjv⟩
    cases jv with
    | zero =>
      have := bestLoop_const rest (some p.1) p.2
        (fun q hq => hmax q (List.mem_cons_of_mem p hq))
      simp only [List.get] at *
      rw [this]
    | succ j0 =>
      have hj0 : j0 < rest.length := by simpa using hjv
      have hget : (p :: rest).get ⟨j0 + 1, hjv⟩ = rest.get ⟨j0, hj0⟩ :=
        List.get_cons_succ
      rw [hget]
      have hp : p.2 < (rest.get ⟨j0, hj0⟩).2 := by
        have := hfirst ⟨0, by simp⟩ (Nat.succ_pos j0)
        rw [hget] at this
        simpa using this
      have hmax' : ∀ q ∈ rest, q.2 ≤ (rest.get ⟨j0, hj0⟩).2 := by
        intro q hq
        have := hmax q (List.mem_cons_of_mem p hq)
        rwa [hget] at this
      have hfirst' : ∀ k (hk : k < rest.length), k < j0 →
          (rest.get ⟨k, hk⟩).2 < (rest.get ⟨j0, hj0⟩).2 := by
        intro k hk hkj
        have hk1 : k + 1 < (p :: rest).length := by simpa using Nat.succ_lt_succ hk
        have := hfirst ⟨k + 1, hk1⟩ (by simpa using Nat.succ_lt_succ hkj)
        rw [hget] at this
        rwa [show (p :: rest).get ⟨k + 1, hk1⟩ = rest.get ⟨k, hk⟩ from List.get_cons_succ] at this
      rw [bestLoop_improve rest j0 hj0 (some p.1) p.2 hp hmax' hfirst']

lemma noisyScores_get (eval : Move → ℚ) (rand : ℕ → ℚ) (c : ℚ)
    (l : List Move) (k : ℕ) (hk : k < l.length)
    (hk2 : k < (noisyScores eval rand c l 0).length) :
    (noisyScores eval rand c l 0).get ⟨k, hk2⟩ =
      (l.get ⟨k, hk⟩, eval (l.get ⟨k, hk⟩) + rand k * c) := by
  have h := noisyScores_get? eval rand c l 0 k
  rw [List.get?_eq_get hk2, List.get?_eq_get hk] at h
  simp only [Nat.zero_add, Option.map_some] at h
  exact Option.some.inj h

/-- `findBestMove` on an empty move list returns `undefined` (`none`)
without any error: `bestMove` starts as `moves[0]` and the loop body never
runs. -/
lemma findBestMove_empty {σ : Type} (E : Engine σ) (s : σ) (d : ℕ)
    (rand : ℕ → ℚ) (h : E.moves s = []) : findBestMove E s d rand = none := by
  simp [findBestMove, h, findLoop]

/-- The full characterization of `findBestMove` on a non-empty move list:
it returns the first move attaining the maximal noisy score — every move
scores no higher, and every earlier move scores strictly lower. -/
lemma findBestMove_spec {σ : Type} (E : Engine σ) (s : σ) (d : ℕ)
    (rand : ℕ → ℚ) (h : E.moves s ≠ []) :
    ∃ j : Fin (E.moves s).length,
      findBestMove E s d rand = some ((E.moves s).get j) ∧
      (∀ k : Fin (E.moves s).length, fscore E s d rand k ≤ fscore E s d rand j) ∧
      (∀ k : Fin (E.moves s).length, (k : ℕ) < (j : ℕ) →
        fscore E s d rand k < fscore E s d rand j) := by
  set ms := E.moves s with hms
  set eval : Move → ℚ :=
    fun m => ((evaluatePosition E (E.applyMove s m) : ℤ) : ℚ) with heval
  set scored := noisyScores eval rand (mag d) ms 0 with hscored
  have hlen : scored.length = ms.length := noisyScores_length eval rand (mag d) ms 0
  have hne : scored ≠ [] := by
    intro hc
    apply h
    have h0 := congrArg List.length hc
    rw [hlen] at h0
    exact List.length_eq_zero.mp h0
  have hfb : findBestMove E s d rand = (bestLoop scored (ms.head?, ⊥)).1 := by
    rw [findBestMove, findLoop_eq_bestLoop]
  have hget : ∀ (k : ℕ) (hk : k < ms.length) (hk2 : k < scored.length),
      scored.get ⟨k, hk2⟩ = (ms.get ⟨k, hk⟩, fscore E s d rand ⟨k, hk⟩) := by
    intro k hk hk2
    exact noisyScores_get eval rand (mag d) ms k hk hk2
  obtain ⟨j, hj1, hj2, hj3⟩ := bestLoop_argmax scored ms.head? hne
  have hjm : (j : ℕ) < ms.length := by rw [← hlen]; exact j.2
  refine ⟨⟨(j : ℕ), hjm⟩, ?_, ?_, ?_⟩
  · rw [hfb, hj1]
    have := hget (j : ℕ) hjm j.2
    rw [show (⟨(j : ℕ), j.2⟩ : Fin scored.length) = j from rfl] at this
    rw [this]
  · intro k
    have hk2 : (k : ℕ) < scored.length := by rw [hlen]; exact k.2
    have hpm : scored.get ⟨(k : ℕ), hk2⟩ ∈ scored := scored.get_mem _ _
    have := hj2 _ hpm
    rw [hget (k : ℕ) k.2 hk2, hget (j : ℕ) hjm j.2] at this
    simpa using this
  · intro k hkj
    have hk2 : (k : ℕ) < scored.length := by rw [hlen]; exact k.2
    have := hj3 ⟨(k : ℕ), hk2⟩ hkj
    rw [hget (k : ℕ) k.2 hk2] at this
    have hj' := hget (j : ℕ) hjm j.2
    rw [show (⟨(j : ℕ), j.2⟩ : Fin scored.length) = j from rfl] at hj'
    rw [hj'] at this
    simpa using this

/-- On a non-empty move list, `findBestMove` returns one of the legal
moves. -/
lemma findBestMove_mem {σ : Type} (E : Engine σ) (s : σ) (d : ℕ)
    (rand : ℕ → ℚ) (h : E.moves s ≠ []) :
    ∃ m ∈ E.moves s, findBestMove E s d rand = some m := by
  obtain ⟨j, hj, -, -⟩ := findBestMove_spec E s d rand h
  exact ⟨(E.moves s).get j, (E.moves s).get_mem _ _, hj⟩

/-- The selected move at any difficulty belongs to the legal-move list,
given a non-empty list and an in-range first random sample. -/
lemma selectMove_mem {σ : Type} (E : Engine σ) (s : σ) (d : Difficulty)
    (rand : ℕ → ℚ) (hr : 0 ≤ rand 0 ∧ rand 0 < 1) (h : E.moves s ≠ []) :
    ∃ m ∈ E.moves s, selectMove E s d rand = some m := by
  cases d with
  | easy =>
    have hnpos : 0 < (E.moves s).length := List.length_pos.mpr h
    have hfl0 : 0 ≤ ⌊rand 0 * ((E.moves s).length : ℚ)⌋ :=
      Int.floor_nonneg.mpr (mul_nonneg hr.1 (by positivity))
    have hflt : ⌊rand 0 * ((E.moves s).length : ℚ)⌋ < ((E.moves s).length : ℤ) := by
      apply Int.floor_lt.mpr
      have h1 : rand 0 * ((E.moves s).length : ℚ) < 1 * ((E.moves s).length : ℚ) :=
        mul_lt_mul_of_pos_right hr.2 (by exact_mod_cast hnpos)
      rw [one_mul] at h1
      exact_mod_cast h1
    have hc : ((Int.toNat ⌊rand 0 * ((E.moves s).length : ℚ)⌋ : ℕ) : ℤ) =
        ⌊rand 0 * ((E.moves s).length : ℚ)⌋ := Int.toNat_of_nonneg hfl0
    have hidx : Int.toNat ⌊rand 0 * ((E.moves s).length : ℚ)⌋ < (E.moves s).length := by
      omega
    refine ⟨(E.moves s).get ⟨_, hidx⟩, (E.moves s).get_mem _ hidx, ?_⟩
    show (E.moves s).get? _ = some _
    exact List.get?_eq_get hidx
  | amateur => exact findBestMove_mem E s 2 rand h
  | pro => exact findBestMove_mem E s 4 rand h

/-- When the guard of `makeComputerMove` fires, the owned position is left
unchanged. -/
lemma makeComputerMove_terminal {σ : Type} (E : Engine σ) (s : σ)
    (d : Difficulty) (rand : ℕ → ℚ) (h : terminalPos E s = true) :
    makeComputerMove E s d rand = s := by
  simp [makeComputerMove, h]

/-- When the guard does not fire, `makeComputerMove` commits a legal move
of the current position. -/
lemma makeComputerMove_commit {σ : Type} (E : Engine σ) (s : σ)
    (d : Difficulty) (rand : ℕ → ℚ) (h : terminalPos E s = false)
    (hr : 0 ≤ rand 0 ∧ rand 0 < 1) :
    ∃ m ∈ E.moves s, makeComputerMove E s d rand = E.applyMove s m := by
  have hne : E.moves s ≠ [] := by
    intro hc
    rw [terminalPos, hc] at h
    simp at h
  obtain ⟨m, hm, hsel⟩ := selectMove_mem E s d rand hr hne
  exact ⟨m, hm, by simp [makeComputerMove, h, hsel]⟩

lemma foldl_cellStep (row : List (Option Piece)) :
    ∀ acc : ℤ, row.foldl cellStep acc =
      acc + ((row.filterMap id).map signedValue).sum := by
  induction row with
  | nil => intro acc; simp
  | cons piece rest ih =>
    intro acc
    cases piece with
    | none => simpa [List.filterMap_cons] using ih acc
    | some pc =>
      simp only [List.foldl_cons, cellStep, ih, List.filterMap_cons, id,
        List.map_cons, List.sum_cons, signedValue]
      ring

lemma foldl_rowStep (b : Board) :
    ∀ acc : ℤ, b.foldl rowStep acc =
      acc + ((b.flatten.filterMap id).map signedValue).sum := by
  induction b with
  | nil => intro acc; simp
  | cons row rest ih =>
    intro acc
    simp only [List.foldl_cons, rowStep, foldl_cellStep, ih, List.flatten_cons,
      List.filterMap_append, List.map_append, List.sum_append]
    ring

/-- `evaluatePosition`'s board walk equals the specification's description:
the sum, over all occupied squares, of the piece's fixed material value
signed by color. -/
lemma evalBoard_sum (b : Board) :
    evalBoard b = ((b.flatten.filterMap id).map signedValue).sum := by
  rw [evalBoard, foldl_rowStep]
  simp

lemma toyOk : EngineOk toyE := by
  refine ⟨rfl, ?_, ?_⟩
  · intro s f t s2 h
    show toyTurn s2 = !toyTurn s
    have h2 : toyTry s f t = MoveResult.legal s2 := h
    unfold toyTry at h2
    split at h2
    · rename_i hc
      injection h2 with h3
      obtain ⟨hs, -, -⟩ := hc
      subst hs
      subst h3
      decide
    · split at h2
      · rename_i hc
        injection h2 with h3
        obtain ⟨hs, -, -⟩ := hc
        subst hs
        subst h3
        decide
      · exact MoveResult.noConfusion h2
  · intro s m hm
    show toyTurn (toyApply s m) = !toyTurn s
    by_cases h0 : s = 0
    · subst h0
      have hm2 : m = "a" ∨ m = "b" := by simpa [toyE, toyMoves] using hm
      rcases hm2 with rfl | rfl <;> decide
    · by_cases h12 : s = 1 ∨ s = 2
      · have hm2 : m = "c" ∨ m = "d" := by
          simpa [toyE, toyMoves, h0, h12] using hm
        rcases h12 with rfl | rfl <;> rcases hm2 with rfl | rfl <;> decide
      · by_cases h3 : s = 3
        · subst h3
          have hm2 : m = "e" := by simpa [toyE, toyMoves] using hm
          subst hm2
          decide
        · by_cases h6 : s = 6
          · subst h6
            have hm2 : m = "p" ∨ m = "q" := by simpa [toyE, toyMoves] using hm
            rcases hm2 with rfl | rfl <;> decide
          · exfalso
            simp [toyE, toyMoves, h0, h12, h3, h6] at hm


lemma findLoop_ext (eval : Move → ℚ) (r1 r2 : ℕ → ℚ) (c1 c2 : ℚ)
    (h : ∀ i, r1 i * c1 = r2 i * c2) :
    ∀ (l : List Move) (i : ℕ) (b : Option Move × WithBot ℚ),
      findLoop eval r1 c1 l i b = findLoop eval r2 c2 l i b := by
  intro l
  induction l with
  | nil => intro i b; rfl
  | cons m rest ih => intro i b; simp only [findLoop, h i, ih]

/-- Claim C1 states the specification's invariant, and the code violates
it.  `onDrop` schedules `setTimeout(makeComputerMove, 300)` (line 52), but
`makeComputerMove` is this render's `useCallback` closure over the
pre-drop `game` (line 14, deps `[game, difficulty]`): `setGame` does not
change that closure, so the fired step checks its guard and selects its
move on the position from before the player's move.  Hence, whenever the
player's legal move produces a terminal position while the pre-drop
position was not terminal, the step still commits — the committed position
is overwritten by `applyMove` of the stale pre-drop position, a position
where it is the player's side to move.  The opponent step thus commits a
move when the current position is terminal and when it is not the
opponent's turn, contradicting the claim: a code bug (the spec's `Terminal`
transition and single-mover invariant are clearly the intent). -/
theorem c1 {σ : Type} (E : Engine σ) (st : GState σ) (src tgt : String)
    (g : σ) (rand : ℕ → ℚ) (hr : 0 ≤ rand 0 ∧ rand 0 < 1)
    (hlegal : E.tryMove st.game src tgt = MoveResult.legal g)
    (hterm : terminalPos E g = true)
    (hstale : terminalPos E st.game = false) :
    (dropStep E st src tgt).game = g ∧
    terminalPos E (dropStep E st src tgt).game = true ∧
    ∃ m ∈ E.moves st.game,
      (dropThenTimer E st src tgt rand).game = E.applyMove st.game m := by
  have hgame : (dropStep E st src tgt).game = g := by
    simp [dropStep, onDrop, hlegal]
  have hflag : (onDrop E st src tgt).1 = true := by
    simp [onDrop, hlegal]
  obtain ⟨m, hm, hmk⟩ :=
    makeComputerMove_commit E st.game st.difficulty rand hstale hr
  refine ⟨hgame, by rw [hgame]; exact hterm, m, hm, ?_⟩
  simp [dropThenTimer, hflag, staleComputerStep, hstale, dropStep, onDrop,
    hlegal, hmk]

theorem c1_witness :
    (0 ≤ zeroRand 0 ∧ zeroRand 0 < 1) ∧
    toyE.tryMove (startState toyE Difficulty.easy).game "d2" "d4" =
      MoveResult.legal 9 ∧
    terminalPos toyE 9 = true ∧
    terminalPos toyE (startState toyE Difficulty.easy).game = false ∧
    ((dropStep toyE (startState toyE Difficulty.easy) "d2" "d4").game = 9 ∧
     terminalPos toyE
       (dropStep toyE (startState toyE Difficulty.easy) "d2" "d4").game = true ∧
     ∃ m ∈ toyE.moves (startState toyE Difficulty.easy).game,
       (dropThenTimer toyE (startState toyE Difficulty.easy) "d2" "d4"
           zeroRand).game =
         toyE.applyMove (startState toyE Difficulty.easy).game m) ∧
    (dropThenTimer toyE (startState toyE Difficulty.easy) "d2" "d4"
        zeroRand).game = 1 := by
  have hr : 0 ≤ zeroRand 0 ∧ zeroRand 0 < 1 := by norm_num [zeroRand]
  refine ⟨hr, by decide, by decide, by decide,
    c1 toyE (startState toyE Difficulty.easy) "d2" "d4" 9 zeroRand hr
      (by decide) (by decide) (by decide), ?_⟩
  norm_num +decide [dropThenTimer, onDrop, dropStep, staleComputerStep,
    makeComputerMove, terminalPos, selectMove, startState, toyE, toyTry,
    toyMoves, toyApply, zeroRand]

/-- Claim C2, as stated, is false of the code: on a position with zero
legal moves the selector does not raise any `NoLegalMoveError` — it
returns JavaScript `undefined` (`moves[0]` of an empty array, modelled
`none`) and control continues normally.  This counterexample evaluates the
selector on the moveless toy position 4 at every difficulty: each call
returns the value `none`, no failure. -/
theorem c2_counterexample :
    toyE.moves 4 = [] ∧
    selectMove toyE 4 Difficulty.amateur zeroRand = none ∧
    selectMove toyE 4 Difficulty.pro zeroRand = none ∧
    selectMove toyE 4 Difficulty.easy zeroRand = none := by
  refine ⟨by decide, ?_, ?_, ?_⟩
  · norm_num [selectMove, findBestMove, findLoop, toyE, toyMoves]
  · norm_num [selectMove, findBestMove, findLoop, toyE, toyMoves]
  · norm_num [selectMove, toyE, toyMoves, zeroRand]

/-- Claim C2 amended: for every position with zero legal moves and every
difficulty, the selector returns no move (`undefined`, modelled `none`)
without raising; for positions with at least one legal move it returns
some legal move. -/
theorem c2_amended {σ : Type} (E : Engine σ) (s : σ) (d : Difficulty)
    (rand : ℕ → ℚ) (hr : 0 ≤ rand 0 ∧ rand 0 < 1) :
    (E.moves s = [] → selectMove E s d rand = none) ∧
    (E.moves s ≠ [] → ∃ m ∈ E.moves s, selectMove E s d rand = some m) := by
  constructor
  · intro h
    cases d with
    | easy => simp [selectMove, h]
    | amateur => exact findBestMove_empty E s 2 rand h
    | pro => exact findBestMove_empty E s 4 rand h
  · intro h
    exact selectMove_mem E s d rand hr h

theorem c2_witness :
    (0 ≤ zeroRand 0 ∧ zeroRand 0 < 1) ∧
    ((toyE.moves 0 = [] → selectMove toyE 0 Difficulty.easy zeroRand = none) ∧
     (toyE.moves 0 ≠ [] →
       ∃ m ∈ toyE.moves 0, selectMove toyE 0 Difficulty.easy zeroRand = some m)) := by
  have hr : 0 ≤ zeroRand 0 ∧ zeroRand 0 < 1 := by norm_num [zeroRand]
  exact ⟨hr, c2_amended toyE 0 Difficulty.easy zeroRand hr⟩

/-- Claim C3, as stated, is false of the code: `getHint` does not invoke
the selector at the controller's current difficulty — it always calls
`findBestMove(game, 3)`.  Concretely, with difficulty `easy` and the
zero random stream, the hint is the greedy move `"b"` while the easy
policy would select `"a"`: the hint and the opponent policy differ on the
same random source, so they are not the same policy. -/
theorem c3_counterexample :
    (getHint toyE (startState toyE Difficulty.easy) zeroRand).hintMove ≠
      selectMove toyE (startState toyE Difficulty.easy).game
        (startState toyE Difficulty.easy).difficulty zeroRand := by
  have h1 : (getHint toyE (startState toyE Difficulty.easy) zeroRand).hintMove =
      some "b" := by
    show findBestMove toyE 0 3 zeroRand = some "b"
    norm_num +decide [findBestMove, findLoop, mag, toyE, toyMoves, toyApply,
      toyBoard, evaluatePosition, evalBoard, rowStep, cellStep, pieceValues,
      zeroRand, WithBot.bot_lt_coe, WithBot.coe_lt_coe]
  have h2 : selectMove toyE (startState toyE Difficulty.easy).game
      (startState toyE Difficulty.easy).difficulty zeroRand = some "a" := by
    show selectMove toyE 0 Difficulty.easy zeroRand = some "a"
    norm_num [selectMove, toyE, toyMoves, zeroRand]
  rw [h1, h2]
  decide

/-- Claim C3 amended: `requestHint` never touches the owned position, the
phase or the difficulty, and its selection is always
`findBestMove(position, 3)` — the noisy-greedy policy whose noise
coefficient is 0.5 (the `pro` magnitude) — regardless of the controller's
current difficulty; indeed the hint coincides with the `pro` (depth 4)
selection on the same random stream. -/
theorem c3_amended {σ : Type} (E : Engine σ) (st : GState σ) (rand : ℕ → ℚ) :
    (getHint E st rand).game = st.game ∧
    (getHint E st rand).phase = st.phase ∧
    (getHint E st rand).difficulty = st.difficulty ∧
    (getHint E st rand).hintMove = findBestMove E st.game 3 rand ∧
    findBestMove E st.game 3 rand = findBestMove E st.game 4 rand := by
  refine ⟨rfl, rfl, rfl, rfl, ?_⟩
  have h34 : mag 3 = mag 4 := by norm_num [mag]
  simp only [findBestMove, h34]

/-- Claim C4: amateur selection scores every legal move as the evaluation
of the position after that single move plus `rand * 2` (noise in
`[0, 2)`), pro selection is the identical one-ply fold with `rand * 0.5`
(noise in `[0, 0.5)`), and the depth argument changes only the noise
coefficient: the depth-4 run equals the depth-2 run on a rescaled random
stream, with no extra search. -/
theorem c4 {σ : Type} (E : Engine σ) (s : σ) (rand : ℕ → ℚ)
    (hr : ∀ i, 0 ≤ rand i ∧ rand i < 1) :
    selectMove E s Difficulty.amateur rand =
      (bestLoop (noisyScores
          (fun m => ((evaluatePosition E (E.applyMove s m) : ℤ) : ℚ))
          rand 2 (E.moves s) 0) ((E.moves s).head?, ⊥)).1 ∧
    selectMove E s Difficulty.pro rand =
      (bestLoop (noisyScores
          (fun m => ((evaluatePosition E (E.applyMove s m) : ℤ) : ℚ))
          rand (1/2) (E.moves s) 0) ((E.moves s).head?, ⊥)).1 ∧
    (∀ i, 0 ≤ rand i * 2 ∧ rand i * 2 < 2) ∧
    (∀ i, 0 ≤ rand i * (1/2) ∧ rand i * (1/2) < 1/2) ∧
    findBestMove E s 4 rand = findBestMove E s 2 (fun i => rand i / 4) := by
  have h2 : mag 2 = 2 := by norm_num [mag]
  have h4 : mag 4 = 1/2 := by norm_num [mag]
  refine ⟨?_, ?_, ?_, ?_, ?_⟩
  · show findBestMove E s 2 rand = _
    simp only [findBestMove, h2, findLoop_eq_bestLoop]
  · show findBestMove E s 4 rand = _
    simp only [findBestMove, h4, findLoop_eq_bestLoop]
  · intro i
    constructor
    · exact mul_nonneg (hr i).1 (by norm_num)
    · have := mul_lt_mul_of_pos_right (hr i).2 (show (0:ℚ) < 2 by norm_num)
      simpa using this
  · intro i
    constructor
    · exact mul_nonneg (hr i).1 (by norm_num)
    · have := mul_lt_mul_of_pos_right (hr i).2 (show (0:ℚ) < 1/2 by norm_num)
      simpa using this
  · have hx : ∀ i, rand i * mag 4 = (rand i / 4) * mag 2 := by
      intro i
      rw [h2, h4]
      ring
    simp only [findBestMove]
    rw [findLoop_ext _ _ _ _ _ hx]

theorem c4_witness :
    (∀ i, 0 ≤ halfRand i ∧ halfRand i < 1) ∧
    findBestMove toyE 0 4 halfRand =
      findBestMove toyE 0 2 (fun i => halfRand i / 4) := by
  have hr : ∀ i, 0 ≤ halfRand i ∧ halfRand i < 1 := by
    intro i
    norm_num [halfRand]
  exact ⟨hr, (c4 toyE 0 halfRand hr).2.2.2.2⟩

/-- Claim C5: the evaluator is exactly the sum, over all occupied squares
of the board, of the piece's fixed material value (p=1, n=3, b=3, r=5,
q=9, k=0) signed by color (+ for White, - for Black), with no positional
terms; it is a pure function of the board, and the standard starting
position evaluates to 0. -/
theorem c5 :
    (∀ b : Board, evalBoard b = ((b.flatten.filterMap id).map signedValue).sum) ∧
    (∀ (σ : Type) (E : Engine σ) (s : σ),
      evaluatePosition E s =
        (((E.board s).flatten.filterMap id).map signedValue).sum) ∧
    evalBoard standardStartingBoard = 0 :=
  ⟨evalBoard_sum, fun _ E s => evalBoard_sum (E.board s), by decide⟩

/-- Claim C6: on a non-empty move list the selection returns the first
move attaining the maximal noisy score: every move scores no higher, and
every earlier move scores strictly lower — the running best is replaced
only on a strict increase, so exact ties (in particular with zero noise
and equal evaluations) keep the earliest move in the engine's native move
order. -/
theorem c6 {σ : Type} (E : Engine σ) (s : σ) (d : ℕ) (rand : ℕ → ℚ)
    (h : E.moves s ≠ []) :
    ∃ j : Fin (E.moves s).length,
      findBestMove E s d rand = some ((E.moves s).get j) ∧
      (∀ k : Fin (E.moves s).length, fscore E s d rand k ≤ fscore E s d rand j) ∧
      (∀ k : Fin (E.moves s).length, (k : ℕ) < (j : ℕ) →
        fscore E s d rand k < fscore E s d rand j) :=
  findBestMove_spec E s d rand h

theorem c6_witness :
    toyE.moves 6 ≠ [] ∧
    (∃ j : Fin (toyE.moves 6).length,
      findBestMove toyE 6 2 zeroRand = some ((toyE.moves 6).get j) ∧
      (∀ k : Fin (toyE.moves 6).length,
        fscore toyE 6 2 zeroRand k ≤ fscore toyE 6 2 zeroRand j) ∧
      (∀ k : Fin (toyE.moves 6).length, (k : ℕ) < (j : ℕ) →
        fscore toyE 6 2 zeroRand k < fscore toyE 6 2 zeroRand j)) ∧
    findBestMove toyE 6 2 zeroRand = some "p" := by
  refine ⟨by decide, c6 toyE 6 2 zeroRand (by decide), ?_⟩
  norm_num +decide [findBestMove, findLoop, mag, toyE, toyMoves, toyApply,
    toyBoard, evaluatePosition, evalBoard, rowStep, cellStep, pieceValues,
    zeroRand, WithBot.bot_lt_coe, WithBot.coe_lt_coe]

/-- Claim C7: `onDrop` never lets an exception escape (a thrown move is
caught and reported as `false`), returns `false` with the controller state
— in particular the position, hence its notation string — unchanged on
every rejected or malformed move, and returns `true` and commits the new
position on a legal move. -/
theorem c7 {σ : Type} (E : Engine σ) (st : GState σ) (src tgt : String) :
    ((onDrop E st src tgt).1 = false → (onDrop E st src tgt).2 = st ∧
      E.fen (onDrop E st src tgt).2.game = E.fen st.game) ∧
    (E.tryMove st.game src tgt = MoveResult.illegal →
      onDrop E st src tgt = (false, st)) ∧
    (E.tryMove st.game src tgt = MoveResult.err →
      onDrop E st src tgt = (false, st)) ∧
    (∀ g, E.tryMove st.game src tgt = MoveResult.legal g →
      onDrop E st src tgt =
        (true, { st with game := g, phase := Phase.pendingComputer })) := by
  cases htm : E.tryMove st.game src tgt with
  | legal g =>
    have hod : onDrop E st src tgt =
        (true, { st with game := g, phase := Phase.pendingComputer }) := by
      simp [onDrop, htm]
    refine ⟨?_, ?_, ?_, ?_⟩
    · intro hf
      rw [hod] at hf
      exact absurd hf (by simp)
    · intro hc
      exact MoveResult.noConfusion hc
    · intro hc
      exact MoveResult.noConfusion hc
    · intro g2 hg
      injection hg with h2
      subst h2
      exact hod
  | illegal =>
    have hod : onDrop E st src tgt = (false, st) := by simp [onDrop, htm]
    refine ⟨fun _ => ⟨by rw [hod], by rw [hod]⟩, fun _ => hod, ?_, ?_⟩
    · intro hc
      exact MoveResult.noConfusion hc
    · intro g hg
      exact MoveResult.noConfusion hg
  | err =>
    have hod : onDrop E st src tgt = (false, st) := by simp [onDrop, htm]
    refine ⟨fun _ => ⟨by rw [hod], by rw [hod]⟩, ?_, fun _ => hod, ?_⟩
    · intro hc
      exact MoveResult.noConfusion hc
    · intro g hg
      exact MoveResult.noConfusion hg

theorem c7_witness :
    onDrop toyE (startState toyE Difficulty.easy) "e2" "e5" =
      (false, startState toyE Difficulty.easy) ∧
    (onDrop toyE (startState toyE Difficulty.easy) "e2" "e4").1 = true := by
  constructor
  · exact (c7 toyE (startState toyE Difficulty.easy) "e2" "e5").2.1 (by decide)
  · rw [(c7 toyE (startState toyE Difficulty.easy) "e2" "e4").2.2.2 1 (by decide)]

/-- Claim C8: for every position with at least one legal move and every
difficulty, the selected move is an element of the legal-move list, so
committing it cannot hit the illegal-move branch. -/
theorem c8 {σ : Type} (E : Engine σ) (s : σ) (d : Difficulty) (rand : ℕ → ℚ)
    (hr : 0 ≤ rand 0 ∧ rand 0 < 1) (h : E.moves s ≠ []) :
    ∃ m ∈ E.moves s, selectMove E s d rand = some m :=
  selectMove_mem E s d rand hr h

theorem c8_witness :
    (0 ≤ zeroRand 0 ∧ zeroRand 0 < 1) ∧ toyE.moves 0 ≠ [] ∧
    (∃ m ∈ toyE.moves 0, selectMove toyE 0 Difficulty.pro zeroRand = some m) := by
  have hr : 0 ≤ zeroRand 0 ∧ zeroRand 0 < 1 := by norm_num [zeroRand]
  exact ⟨hr, by decide, c8 toyE 0 Difficulty.pro zeroRand hr (by decide)⟩

/-- Claim C9: from any controller state, pressing a difficulty button —
the spec's `reset(difficulty)` — produces exactly the fresh state: the
standard starting position, the chosen difficulty, no pending hint, hint
display off, awaiting the player's move. -/
theorem c9 {σ : Type} (E : Engine σ) (d : Difficulty) (st : GState σ) :
    difficultyButton E d st =
      { game := E.start, difficulty := d, showHint := false, hintMove := none,
        phase := Phase.awaiting } :=
  rfl

/-- Claim C10: the greedy selection maximizes the White-favoring score
`evaluate(resultingPosition) + noise` exactly as computed, with no
negation or side-to-move adjustment: even with Black to move, the chosen
move is one whose noisy White-favoring score is maximal among all legal
moves, at every depth (amateur 2, hint 3, pro 4). -/
theorem c10 {σ : Type} (E : Engine σ) (s : σ) (d : ℕ) (rand : ℕ → ℚ)
    (hturn : E.turn s = false) (h : E.moves s ≠ []) :
    ∃ j : Fin (E.moves s).length,
      findBestMove E s d rand = some ((E.moves s).get j) ∧
      ∀ k : Fin (E.moves s).length,
        ((evaluatePosition E (E.applyMove s ((E.moves s).get k)) : ℤ) : ℚ) +
            rand (k : ℕ) * mag d ≤
          ((evaluatePosition E (E.applyMove s ((E.moves s).get j)) : ℤ) : ℚ) +
            rand (j : ℕ) * mag d := by
  obtain ⟨j, h1, h2, -⟩ := findBestMove_spec E s d rand h
  exact ⟨j, h1, fun k => h2 k⟩

theorem c10_witness :
    toyE.turn 2 = false ∧ toyE.moves 2 ≠ [] ∧
    (∃ j : Fin (toyE.moves 2).length,
      findBestMove toyE 2 2 zeroRand = some ((toyE.moves 2).get j) ∧
      ∀ k : Fin (toyE.moves 2).length,
        ((evaluatePosition toyE (toyApply 2 ((toyE.moves 2).get k)) : ℤ) : ℚ) +
            zeroRand (k : ℕ) * mag 2 ≤
          ((evaluatePosition toyE (toyApply 2 ((toyE.moves 2).get j)) : ℤ) : ℚ) +
            zeroRand (j : ℕ) * mag 2) ∧
    findBestMove toyE 2 2 zeroRand = some "d" := by
  refine ⟨by decide, by decide, c10 toyE 2 2 zeroRand (by decide) (by decide), ?_⟩
  norm_num +decide [findBestMove, findLoop, mag, toyE, toyMoves, toyApply,
    toyBoard, evaluatePosition, evalBoard, rowStep, cellStep, pieceValues,
    zeroRand, WithBot.bot_lt_coe, WithBot.coe_lt_coe]

end ChessGame
